import Mathlib

/-!
Verification of the adversarial search engine of `chess_engine.py`
(evaluate_board, alpha_beta, get_best_move) against its specification.

The rules engine (the `python-chess` library) is out of scope per the
spec; it is modelled by an abstract `Game` structure providing side to
move, terminal test, ordered legal-move enumeration, move application
and the piece map.  Python's float `-inf`/`+inf` sentinels mixed with
integer material scores are modelled by `Score := WithBot (WithTop ℤ)`,
whose linear order matches Python's comparisons on these values.
-/

namespace ChessEngine

/-- Scores: integers extended with `-inf` (`⊥`) and `+inf` (`⊤`),
mirroring the Python code's use of `float('inf')` sentinels around
integer material values. -/
abbrev Score : Type := WithBot (WithTop ℤ)

/-- Embed an integer material value into `Score`. -/
def Score.ofInt (n : ℤ) : Score := ((n : WithTop ℤ) : WithBot (WithTop ℤ))

/-- A `Score` is finite when it is neither `-inf` nor `+inf`. -/
def Score.IsFinite (v : Score) : Prop := ∃ n : ℤ, v = Score.ofInt n

theorem score_bot_lt_ofInt (n : ℤ) : (⊥ : Score) < Score.ofInt n :=
  WithBot.bot_lt_coe _

theorem score_ofInt_lt_top (n : ℤ) : Score.ofInt n < (⊤ : Score) := by
  rw [Score.ofInt, ← WithBot.coe_top]
  exact WithBot.coe_lt_coe.2 (WithTop.coe_lt_top n)

theorem score_ofInt_ne_bot (n : ℤ) : Score.ofInt n ≠ (⊥ : Score) :=
  WithBot.coe_ne_bot

theorem score_ofInt_ne_top (n : ℤ) : Score.ofInt n ≠ (⊤ : Score) :=
  (score_ofInt_lt_top n).ne

theorem score_bot_lt_top : (⊥ : Score) < (⊤ : Score) :=
  lt_of_lt_of_le (score_bot_lt_ofInt 0) le_top

/-- The six chess piece types. -/
inductive PieceType : Type
  | pawn
  | knight
  | bishop
  | rook
  | queen
  | king
deriving DecidableEq

/-- A piece: its type together with its owning color.  As in
`python-chess`, a color is a `Bool` (`true` = White). -/
structure Piece : Type where
  ptype : PieceType
  color : Bool
deriving DecidableEq

/-- Abstract rules engine (the spec's external collaborator): side to
move, terminal test, ordered legal-move list, move application, and the
piece map.  `push` is functional; the Python code's in-place
`push`/`pop` discipline is modelled separately by `BoardState`. -/
structure Game (Pos : Type) (Move : Type) : Type where
  turn : Pos → Bool
  is_game_over : Pos → Bool
  legal_moves : Pos → List Move
  push : Pos → Move → Pos
  piece_map : Pos → List (Nat × Piece)

variable {Pos Move : Type}

/-- The `piece_values` dictionary of `evaluate_board`, keyed on the
piece symbol, i.e. on (type, color): `'P': 1, 'N': 3, 'B': 3, 'R': 5,
'Q': 9, 'K': 0` and the same values for the lowercase (Black) symbols. -/
def piece_values (t : PieceType) (white : Bool) : ℤ :=
  match t, white with
  | .pawn, true => 1
  | .knight, true => 3
  | .bishop, true => 3
  | .rook, true => 5
  | .queen, true => 9
  | .king, true => 0
  | .pawn, false => 1
  | .knight, false => 3
  | .bishop, false => 3
  | .rook, false => 5
  | .queen, false => 9
  | .king, false => 0

/-- `evaluate_board(board, ai_color)`: material balance, adding the
value of each piece belonging to `ai_color` and subtracting the value
of each other piece, folding over the board's piece map. -/
def evaluate_board (g : Game Pos Move) (b : Pos) (ai_color : Bool) : ℤ :=
  (g.piece_map b).foldl
    (fun value sp =>
      if sp.2.color = ai_color then value + piece_values sp.2.ptype sp.2.color
      else value - piece_values sp.2.ptype sp.2.color)
    0

/-- The maximizing branch of `alpha_beta`: fold over the legal moves,
keeping `max_eval`, raising `alpha`, and breaking out as soon as
`beta <= alpha`.  `f` is the recursive search one depth lower. -/
def ab_max_loop (f : Pos → Score → Score → Score) (g : Game Pos Move) (b : Pos)
    (beta : Score) : List Move → Score → Score → Score
  | [], _, max_eval => max_eval
  | m :: ms, alpha, max_eval =>
    let ev := f (g.push b m) alpha beta
    let max_eval' := max max_eval ev
    let alpha' := max alpha ev
    if beta ≤ alpha' then max_eval'
    else ab_max_loop f g b beta ms alpha' max_eval'

/-- The minimizing branch of `alpha_beta`: fold over the legal moves,
keeping `min_eval`, lowering `beta`, and breaking out as soon as
`beta <= alpha`. -/
def ab_min_loop (f : Pos → Score → Score → Score) (g : Game Pos Move) (b : Pos)
    (alpha : Score) : List Move → Score → Score → Score
  | [], _, min_eval => min_eval
  | m :: ms, beta, min_eval =>
    let ev := f (g.push b m) alpha beta
    let min_eval' := min min_eval ev
    let beta' := min beta ev
    if beta' ≤ alpha then min_eval'
    else ab_min_loop f g b alpha ms beta' min_eval'

/-- `alpha_beta(board, depth, alpha, beta, ai_color)`: at depth 0 or on
a terminal position return the static evaluation; otherwise run the
maximizing loop when the side to move is `ai_color` (starting from
`max_eval = -inf`) and the minimizing loop otherwise (starting from
`min_eval = +inf`). -/
def alpha_beta (g : Game Pos Move) (ai_color : Bool) :
    Nat → Pos → Score → Score → Score
  | 0, b, _, _ => Score.ofInt (evaluate_board g b ai_color)
  | d + 1, b, alpha, beta =>
    if g.is_game_over b then Score.ofInt (evaluate_board g b ai_color)
    else if g.turn b == ai_color then
      ab_max_loop (alpha_beta g ai_color d) g b beta (g.legal_moves b) alpha ⊥
    else
      ab_min_loop (alpha_beta g ai_color d) g b alpha (g.legal_moves b) beta ⊤

/-- Exhaustive unpruned minimax of the same depth, the spec's reference
point for the root-level result of the pruned search (§8, "Equivalence
to unpruned minimax").  Written from the spec's words. -/
def minimax (g : Game Pos Move) (ai_color : Bool) : Nat → Pos → Score
  | 0, b => Score.ofInt (evaluate_board g b ai_color)
  | d + 1, b =>
    if g.is_game_over b then Score.ofInt (evaluate_board g b ai_color)
    else if g.turn b == ai_color then
      ((g.legal_moves b).map (fun m => minimax g ai_color d (g.push b m))).foldl max ⊥
    else
      ((g.legal_moves b).map (fun m => minimax g ai_color d (g.push b m))).foldl min ⊤

/-- The score `get_best_move` computes for one root move `m`:
`alpha_beta(board.push(m), depth - 1, -inf, +inf, ai_color)`. -/
def root_score (g : Game Pos Move) (ai_color : Bool) (b : Pos) (depth : Nat)
    (m : Move) : Score :=
  alpha_beta g ai_color (depth - 1) (g.push b m) ⊥ ⊤

/-- The root loop of `get_best_move`, abstracted over the per-move
score function: replace `(best_move, best_value)` only when the new
score is strictly better (`>` when maximizing, `<` when minimizing). -/
def best_loop (score : Move → Score) (is_maximizing : Bool) :
    List Move → Option Move → Score → Option Move × Score
  | [], best_move, best_value => (best_move, best_value)
  | m :: ms, best_move, best_value =>
    let board_value := score m
    if is_maximizing ∧ best_value < board_value then
      best_loop score is_maximizing ms (some m) board_value
    else if ¬is_maximizing ∧ board_value < best_value then
      best_loop score is_maximizing ms (some m) board_value
    else
      best_loop score is_maximizing ms best_move best_value

/-- `get_best_move(board, depth, ai_color)`.  The random fallback
(`random.choice(list(board.legal_moves))`, taken only when the loop
never assigned a best move) is modelled by the oracle `choice`: the
result is `choice (legal_moves b)` exactly when the fallback branch is
taken. -/
def get_best_move (g : Game Pos Move) (choice : List Move → Option Move)
    (b : Pos) (depth : Nat) (ai_color : Bool) : Option Move :=
  let is_maximizing := g.turn b == ai_color
  let best_value : Score := if is_maximizing then ⊥ else ⊤
  let r := best_loop (root_score g ai_color b depth) is_maximizing
    (g.legal_moves b) none best_value
  match r.1 with
  | some m => some m
  | none => choice (g.legal_moves b)

/-- The same root selection driven by exhaustive unpruned minimax child
scores instead of pruned scores — the spec-side comparator for the
refinement claim ("the same move unpruned minimax with the same
first-move tie-break would choose"). -/
def get_best_move_minimax (g : Game Pos Move) (choice : List Move → Option Move)
    (b : Pos) (depth : Nat) (ai_color : Bool) : Option Move :=
  let is_maximizing := g.turn b == ai_color
  let best_value : Score := if is_maximizing then ⊥ else ⊤
  let r := best_loop (fun m => minimax g ai_color (depth - 1) (g.push b m))
    is_maximizing (g.legal_moves b) none best_value
  match r.1 with
  | some m => some m
  | none => choice (g.legal_moves b)

/-- The spec's per-piece-type material weights (§4.1): pawn 1, minor
pieces 3, rook 5, queen 9, and no material weight for the king, the
piece whose capture ends the game.  Written from the spec's words, to
be compared with the source's symbol-keyed `piece_values` table. -/
def spec_material_weight : PieceType → ℤ
  | .pawn => 1
  | .knight => 3
  | .bishop => 3
  | .rook => 5
  | .queen => 9
  | .king => 0

/-- The signed contribution of one piece-map entry from a given
perspective: its spec weight, added for the perspective's own pieces
and subtracted for the opponent's. -/
def signed_weight (persp : Bool) (sp : Nat × Piece) : ℤ :=
  if sp.2.color = persp then spec_material_weight sp.2.ptype
  else -spec_material_weight sp.2.ptype

/-! ### State-threaded embedding of the in-place `push`/`pop` discipline

The Python code mutates one shared `board` via `board.push(move)` /
`board.pop()`.  `BoardState` makes that mutable object explicit: the
current position together with the stack of previous positions that
`pop` restores (the rules engine's contract is that `pop` restores the
bit-exact state before the matching `push`). -/

/-- The mutable board object: current position plus the undo stack. -/
structure BoardState (Pos : Type) : Type where
  cur : Pos
  stack : List Pos
deriving DecidableEq

/-- `board.push(move)`: advance the position, saving the old one. -/
def pushS (g : Game Pos Move) (s : BoardState Pos) (m : Move) : BoardState Pos :=
  ⟨g.push s.cur m, s.cur :: s.stack⟩

/-- `board.pop()`: restore the most recently saved position.  In the
code every `pop` follows a `push`, so the stack is never empty there;
on an empty stack this model leaves the state unchanged. -/
def popS (s : BoardState Pos) : BoardState Pos :=
  match s.stack with
  | [] => s
  | p :: rest => ⟨p, rest⟩

/-- Maximizing branch of `alpha_beta` with the board state threaded
through push / recursive call / pop, exactly as in the source: the pop
happens before the `beta <= alpha` break on every iteration. -/
def ab_max_loopS (f : BoardState Pos → Score → Score → Score × BoardState Pos)
    (g : Game Pos Move) (beta : Score) :
    List Move → BoardState Pos → Score → Score → Score × BoardState Pos
  | [], s, _, max_eval => (max_eval, s)
  | m :: ms, s, alpha, max_eval =>
    let s1 := pushS g s m
    let r := f s1 alpha beta
    let s2 := popS r.2
    let max_eval' := max max_eval r.1
    let alpha' := max alpha r.1
    if beta ≤ alpha' then (max_eval', s2)
    else ab_max_loopS f g beta ms s2 alpha' max_eval'

/-- Minimizing branch of `alpha_beta` with the board state threaded. -/
def ab_min_loopS (f : BoardState Pos → Score → Score → Score × BoardState Pos)
    (g : Game Pos Move) (alpha : Score) :
    List Move → BoardState Pos → Score → Score → Score × BoardState Pos
  | [], s, _, min_eval => (min_eval, s)
  | m :: ms, s, beta, min_eval =>
    let s1 := pushS g s m
    let r := f s1 alpha beta
    let s2 := popS r.2
    let min_eval' := min min_eval r.1
    let beta' := min beta r.1
    if beta' ≤ alpha then (min_eval', s2)
    else ab_min_loopS f g alpha ms s2 beta' min_eval'

/-- `alpha_beta` over the explicit mutable board state, returning the
score together with the board state as left behind by the call. -/
def alpha_betaS (g : Game Pos Move) (ai_color : Bool) :
    Nat → BoardState Pos → Score → Score → Score × BoardState Pos
  | 0, s, _, _ => (Score.ofInt (evaluate_board g s.cur ai_color), s)
  | d + 1, s, alpha, beta =>
    if g.is_game_over s.cur then (Score.ofInt (evaluate_board g s.cur ai_color), s)
    else if g.turn s.cur == ai_color then
      ab_max_loopS (alpha_betaS g ai_color d) g beta (g.legal_moves s.cur) s alpha ⊥
    else
      ab_min_loopS (alpha_betaS g ai_color d) g alpha (g.legal_moves s.cur) s beta ⊤

/-- The root loop of `get_best_move` over the explicit board state:
push, score with `alpha_betaS` at a fresh full window, pop, then the
strict-improvement update. -/
def best_loopS (g : Game Pos Move) (ai_color : Bool) (depth : Nat)
    (is_maximizing : Bool) :
    List Move → BoardState Pos → Option Move → Score →
      (Option Move × Score) × BoardState Pos
  | [], s, best_move, best_value => ((best_move, best_value), s)
  | m :: ms, s, best_move, best_value =>
    let s1 := pushS g s m
    let r := alpha_betaS g ai_color (depth - 1) s1 ⊥ ⊤
    let s2 := popS r.2
    if is_maximizing ∧ best_value < r.1 then
      best_loopS g ai_color depth is_maximizing ms s2 (some m) r.1
    else if ¬is_maximizing ∧ r.1 < best_value then
      best_loopS g ai_color depth is_maximizing ms s2 (some m) r.1
    else
      best_loopS g ai_color depth is_maximizing ms s2 best_move best_value

/-- `get_best_move` over the explicit board state. -/
def get_best_moveS (g : Game Pos Move) (choice : List Move → Option Move)
    (s : BoardState Pos) (depth : Nat) (ai_color : Bool) :
    Option Move × BoardState Pos :=
  let is_maximizing := g.turn s.cur == ai_color
  let best_value : Score := if is_maximizing then ⊥ else ⊤
  let r := best_loopS g ai_color depth is_maximizing (g.legal_moves s.cur) s
    none best_value
  match r.1.1 with
  | some m => (some m, r.2)
  | none => (choice (g.legal_moves s.cur), r.2)

/-! ### Window instrumentation

Ghost instrumentation of `alpha_beta`: it performs the identical
recursion (using `alpha_beta` itself for the child values that drive
the `alpha`/`beta` updates and the break) but records, for every
recursive `alpha_beta` invocation in the subtree, the `(alpha, beta)`
window that invocation receives. -/

/-- Windows recorded by the maximizing loop: each child call receives
the current `(alpha, beta)`, and iteration stops at `beta <= alpha`. -/
def ab_windows_max_loop (fab : Pos → Score → Score → Score)
    (fw : Pos → Score → Score → List (Score × Score)) (g : Game Pos Move)
    (b : Pos) (beta : Score) : List Move → Score → List (Score × Score)
  | [], _ => []
  | m :: ms, alpha =>
    let child := g.push b m
    let ev := fab child alpha beta
    let alpha' := max alpha ev
    ((alpha, beta) :: fw child alpha beta) ++
      (if beta ≤ alpha' then [] else ab_windows_max_loop fab fw g b beta ms alpha')

/-- Windows recorded by the minimizing loop. -/
def ab_windows_min_loop (fab : Pos → Score → Score → Score)
    (fw : Pos → Score → Score → List (Score × Score)) (g : Game Pos Move)
    (b : Pos) (alpha : Score) : List Move → Score → List (Score × Score)
  | [], _ => []
  | m :: ms, beta =>
    let child := g.push b m
    let ev := fab child alpha beta
    let beta' := min beta ev
    ((alpha, beta) :: fw child alpha beta) ++
      (if beta' ≤ alpha then [] else ab_windows_min_loop fab fw g b alpha ms beta')

/-- All `(alpha, beta)` windows passed to recursive `alpha_beta` calls
anywhere strictly below a node searched with window `(alpha, beta)`. -/
def ab_windows (g : Game Pos Move) (ai_color : Bool) :
    Nat → Pos → Score → Score → List (Score × Score)
  | 0, _, _, _ => []
  | d + 1, b, alpha, beta =>
    if g.is_game_over b then []
    else if g.turn b == ai_color then
      ab_windows_max_loop (alpha_beta g ai_color d) (ab_windows g ai_color d) g b
        beta (g.legal_moves b) alpha
    else
      ab_windows_min_loop (alpha_beta g ai_color d) (ab_windows g ai_color d) g b
        alpha (g.legal_moves b) beta

/-! ### A small concrete game, used to exercise the theorems -/

/-- A tiny concrete rules engine on `Nat` positions: never terminal,
always exactly two legal moves, with a piece map that varies with the
position.  Used only to instantiate the abstract theorems. -/
def demoGame : Game Nat Nat where
  turn p := p % 2 == 0
  is_game_over _ := false
  legal_moves p := [p + 1, p + 2]
  push _ m := m
  piece_map p :=
    if p % 4 == 0 then [(0, ⟨.pawn, true⟩), (1, ⟨.king, false⟩)]
    else if p % 4 == 1 then [(0, ⟨.queen, false⟩)]
    else [(0, ⟨.rook, true⟩), (1, ⟨.knight, false⟩)]

/-! ### Fold lemmas for `max` / `min` over score lists -/

theorem foldl_max_decomp (l : List Score) :
    ∀ a : Score, l.foldl max a = max a (l.foldl max ⊥) := by
  induction l with
  | nil => intro a; simp
  | cons x l ih =>
    intro a
    simp only [List.foldl_cons]
    rw [ih (max a x), ih (max ⊥ x), max_eq_right (bot_le : (⊥ : Score) ≤ x),
      max_assoc]

theorem foldl_min_decomp (l : List Score) :
    ∀ a : Score, l.foldl min a = min a (l.foldl min ⊤) := by
  induction l with
  | nil => intro a; simp
  | cons x l ih =>
    intro a
    simp only [List.foldl_cons]
    rw [ih (min a x), ih (min ⊤ x), min_eq_right (le_top : x ≤ (⊤ : Score)),
      min_assoc]

theorem le_foldl_max (l : List Score) (a : Score) : a ≤ l.foldl max a := by
  rw [foldl_max_decomp]; exact le_max_left _ _

theorem foldl_min_le (l : List Score) (a : Score) : l.foldl min a ≤ a := by
  rw [foldl_min_decomp]; exact min_le_left _ _

theorem foldl_max_mono (l : List Score) {a b : Score} (h : a ≤ b) :
    l.foldl max a ≤ l.foldl max b := by
  rw [foldl_max_decomp, foldl_max_decomp l b]
  exact max_le_max h (le_refl _)

theorem foldl_min_mono (l : List Score) {a b : Score} (h : a ≤ b) :
    l.foldl min a ≤ l.foldl min b := by
  rw [foldl_min_decomp, foldl_min_decomp l b]
  exact min_le_min h (le_refl _)

/-! ### Evaluation lemmas -/

/-- The source's symbol-keyed value table assigns every piece type the
spec's material weight, for both colors. -/
theorem piece_values_eq_weight (t : PieceType) (c : Bool) :
    piece_values t c = spec_material_weight t := by
  cases t <;> cases c <;> rfl

theorem evaluate_board_eq_sum (g : Game Pos Move) (b : Pos) (c : Bool) :
    evaluate_board g b c = ((g.piece_map b).map (signed_weight c)).sum := by
  have key : ∀ (l : List (Nat × Piece)) (v : ℤ),
      l.foldl
        (fun value sp =>
          if sp.2.color = c then value + piece_values sp.2.ptype sp.2.color
          else value - piece_values sp.2.ptype sp.2.color) v
        = v + (l.map (signed_weight c)).sum := by
    intro l
    induction l with
    | nil => intro v; simp
    | cons x l ih =>
      intro v
      simp only [List.foldl_cons, List.map_cons, List.sum_cons]
      by_cases hx : x.2.color = c
      · rw [if_pos hx, ih, signed_weight, if_pos hx, piece_values_eq_weight]
        ring
      · rw [if_neg hx, ih, signed_weight, if_neg hx, piece_values_eq_weight]
        ring
  rw [evaluate_board, key, zero_add]

theorem sum_map_neg {α : Type} (l : List α) (f : α → ℤ) :
    (l.map fun x => -f x).sum = -(l.map f).sum := by
  induction l with
  | nil => simp
  | cons x l ih => simp only [List.map_cons, List.sum_cons, ih]; ring

/-- Claim C3: for every position `p` and the two opposing sides `A` and
`B`, `evaluate_board(p, A) = -evaluate_board(p, B)`: the evaluation is
exactly antisymmetric in the perspective argument. -/
theorem evaluate_board_antisymm (g : Game Pos Move) (b : Pos) (A B : Bool)
    (h : A ≠ B) : evaluate_board g b A = -evaluate_board g b B := by
  rw [evaluate_board_eq_sum, evaluate_board_eq_sum, ← sum_map_neg]
  congr 1
  apply List.map_congr_left
  intro sp _
  have hcol : (sp.2.color = A) ↔ ¬(sp.2.color = B) := by
    cases A <;> cases B <;> simp_all
  by_cases hc : sp.2.color = A
  · rw [signed_weight, if_pos hc, signed_weight, if_neg (hcol.mp hc), neg_neg]
  · rw [signed_weight, if_neg hc, signed_weight,
      if_pos (not_not.mp fun hb => hc (hcol.mpr hb))]

/-- Witness for C3 at a concrete position of the demo game. -/
theorem evaluate_board_antisymm_witness :
    evaluate_board demoGame 5 true = -evaluate_board demoGame 5 false :=
  evaluate_board_antisymm demoGame 5 true false (by decide)

/-- Claim C6: `evaluate_board` returns the sum, over all pieces on the
board, of the fixed per-piece-type weight — pawn 1, knight 3, bishop 3,
rook 5, queen 9, king 0 — added for pieces of the perspective side and
subtracted otherwise. -/
theorem evaluate_board_material_sum (g : Game Pos Move) (b : Pos) (c : Bool) :
    evaluate_board g b c = ((g.piece_map b).map (signed_weight c)).sum :=
  evaluate_board_eq_sum g b c

/-- Claim C4: whenever `depth = 0` or the position is terminal,
`alpha_beta` returns exactly the static evaluation, for every window
and perspective. -/
theorem alpha_beta_base (g : Game Pos Move) (c : Bool) (d : Nat) (b : Pos)
    (alpha beta : Score) (h : d = 0 ∨ g.is_game_over b = true) :
    alpha_beta g c d b alpha beta = Score.ofInt (evaluate_board g b c) := by
  cases d with
  | zero => rfl
  | succ d =>
    rcases h with h | h
    · exact absurd h (Nat.succ_ne_zero d)
    · rw [alpha_beta, if_pos h]

/-- Witness for C4: depth 0 at a concrete position. -/
theorem alpha_beta_base_witness :
    alpha_beta demoGame true 0 3 ⊥ ⊤ = Score.ofInt (evaluate_board demoGame 3 true) :=
  alpha_beta_base demoGame true 0 3 ⊥ ⊤ (Or.inl rfl)

/-! ### Board restoration (the apply/undo discipline) -/

theorem popS_pushS (g : Game Pos Move) (s : BoardState Pos) (m : Move) :
    popS (pushS g s m) = s := by
  cases s; rfl

theorem ab_max_loopS_frame
    (f : BoardState Pos → Score → Score → Score × BoardState Pos)
    (g : Game Pos Move) (beta : Score)
    (hf : ∀ s alpha beta', (f s alpha beta').2 = s) :
    ∀ (ms : List Move) (s : BoardState Pos) (alpha max_eval : Score),
      (ab_max_loopS f g beta ms s alpha max_eval).2 = s := by
  intro ms
  induction ms with
  | nil => intro s alpha max_eval; rfl
  | cons m ms ih =>
    intro s alpha max_eval
    simp only [ab_max_loopS, hf, popS_pushS]
    split
    · rfl
    · exact ih s _ _

theorem ab_min_loopS_frame
    (f : BoardState Pos → Score → Score → Score × BoardState Pos)
    (g : Game Pos Move) (alpha : Score)
    (hf : ∀ s alpha' beta, (f s alpha' beta).2 = s) :
    ∀ (ms : List Move) (s : BoardState Pos) (beta min_eval : Score),
      (ab_min_loopS f g alpha ms s beta min_eval).2 = s := by
  intro ms
  induction ms with
  | nil => intro s beta min_eval; rfl
  | cons m ms ih =>
    intro s beta min_eval
    simp only [ab_min_loopS, hf, popS_pushS]
    split
    · rfl
    · exact ih s _ _

theorem alpha_betaS_frame (g : Game Pos Move) (c : Bool) :
    ∀ (d : Nat) (s : BoardState Pos) (alpha beta : Score),
      (alpha_betaS g c d s alpha beta).2 = s := by
  intro d
  induction d with
  | zero => intro s alpha beta; rfl
  | succ d ih =>
    intro s alpha beta
    rw [alpha_betaS]
    split
    · rfl
    · split
      · exact ab_max_loopS_frame _ g beta (fun s' a b => ih s' a b) _ s alpha ⊥
      · exact ab_min_loopS_frame _ g alpha (fun s' a b => ih s' a b) _ s beta ⊤

theorem best_loopS_frame (g : Game Pos Move) (c : Bool) (depth : Nat)
    (imax : Bool) :
    ∀ (ms : List Move) (s : BoardState Pos) (bm : Option Move) (bv : Score),
      (best_loopS g c depth imax ms s bm bv).2 = s := by
  intro ms
  induction ms with
  | nil => intro s bm bv; rfl
  | cons m ms ih =>
    intro s bm bv
    simp only [best_loopS, alpha_betaS_frame, popS_pushS]
    split
    · exact ih s _ _
    · split
      · exact ih s _ _
      · exact ih s _ _

theorem get_best_moveS_frame (g : Game Pos Move)
    (choice : List Move → Option Move) (s : BoardState Pos) (depth : Nat)
    (c : Bool) : (get_best_moveS g choice s depth c).2 = s := by
  rw [get_best_moveS]
  have h := best_loopS_frame g c depth (g.turn s.cur == c) (g.legal_moves s.cur)
    s none (if g.turn s.cur == c then (⊥ : Score) else ⊤)
  split <;> simpa using h

/-- Claim C2: for every position, depth and perspective, both the
recursive search and the root selector leave the board state exactly as
they found it: every `push` is matched by a `pop` on every return path,
including the early `beta <= alpha` break exits. -/
theorem search_restores_board (g : Game Pos Move) (c : Bool)
    (choice : List Move → Option Move) (d depth : Nat) (s : BoardState Pos)
    (alpha beta : Score) :
    (alpha_betaS g c d s alpha beta).2 = s ∧
    (get_best_moveS g choice s depth c).2 = s :=
  ⟨alpha_betaS_frame g c d s alpha beta, get_best_moveS_frame g choice s depth c⟩

/-! ### Alpha-beta returns the unpruned minimax value at the root

Fail-soft alpha-beta invariants: a value returned inside the window is
exact, a value at or below `alpha` is an upper bound on the true value,
a value at or above `beta` is a lower bound. -/

theorem ab_max_loop_bounds (f : Pos → Score → Score → Score) (t : Pos → Score)
    (g : Game Pos Move) (b : Pos) (beta : Score)
    (hf : ∀ p a, a < beta →
      (f p a beta < beta → t p ≤ f p a beta) ∧
      (a < f p a beta → f p a beta ≤ t p)) :
    ∀ (ms : List Move) (M alpha0 : Score), max alpha0 M < beta →
      (ab_max_loop f g b beta ms (max alpha0 M) M < beta →
        (ms.map (fun m => t (g.push b m))).foldl max M ≤
          ab_max_loop f g b beta ms (max alpha0 M) M) ∧
      (alpha0 < ab_max_loop f g b beta ms (max alpha0 M) M →
        ab_max_loop f g b beta ms (max alpha0 M) M ≤
          (ms.map (fun m => t (g.push b m))).foldl max M) := by
  intro ms
  induction ms with
  | nil =>
    intro M alpha0 _
    exact ⟨fun _ => le_refl _, fun _ => le_refl _⟩
  | cons m ms ih =>
    intro M alpha0 hab
    simp only [ab_max_loop, List.map_cons, List.foldl_cons]
    set ev := f (g.push b m) (max alpha0 M) beta with hev
    have hfm := hf (g.push b m) (max alpha0 M) hab
    rw [← hev] at hfm
    by_cases hbr : beta ≤ max (max alpha0 M) ev
    · rw [if_pos hbr]
      have hbev : beta ≤ ev := by
        rcases le_max_iff.mp hbr with h | h
        · exact absurd h (not_le.mpr hab)
        · exact h
      constructor
      · intro h1
        exact absurd h1 (not_lt.mpr (hbev.trans (le_max_right M ev)))
      · intro h2
        rcases le_or_lt ev M with hevM | hMev
        · rw [max_eq_left hevM]
          exact (le_max_left M _).trans (le_foldl_max _ _)
        · rw [max_eq_right hMev.le] at h2 ⊢
          have hcall : max alpha0 M < ev := max_lt h2 hMev
          exact (hfm.2 hcall).trans ((le_max_right M _).trans (le_foldl_max _ _))
    · rw [if_neg hbr]
      have hab' : max alpha0 (max M ev) < beta := by
        rw [← max_assoc]; exact not_le.mp hbr
      have ihh := ih (max M ev) alpha0 hab'
      rw [max_assoc]
      have hevb : ev < beta := lt_of_le_of_lt (le_max_right _ _) (not_le.mp hbr)
      have htc : t (g.push b m) ≤ ev := hfm.1 hevb
      constructor
      · intro h1
        have hmono : max M (t (g.push b m)) ≤ max M ev := max_le_max le_rfl htc
        exact (foldl_max_mono _ hmono).trans (ihh.1 h1)
      · intro h2
        have hv := ihh.2 h2
        rcases le_or_lt ev (max M (t (g.push b m))) with hle | hgt
        · have : max M ev ≤ max M (t (g.push b m)) :=
            max_le (le_max_left _ _) hle
          exact hv.trans (foldl_max_mono _ this)
        · have hMev : M < ev := lt_of_le_of_lt (le_max_left _ _) hgt
          have hevle : ev ≤ alpha0 := by
            have hnlt : ¬ max alpha0 M < ev := fun hcall =>
              absurd (hfm.2 hcall)
                (not_le.mpr (lt_of_le_of_lt (le_max_right M _) hgt))
            rcases le_max_iff.mp (not_lt.mp hnlt) with h | h
            · exact h
            · exact absurd hMev (not_lt.mpr h)
          rw [foldl_max_decomp] at hv
          rw [foldl_max_decomp]
          rcases le_max_iff.mp hv with hv1 | hv1
          · rcases le_max_iff.mp hv1 with hv2 | hv2
            · exact le_max_of_le_left (le_max_of_le_left hv2)
            · exact absurd h2 (not_lt.mpr (hv2.trans hevle))
          · exact le_max_of_le_right hv1

theorem ab_min_loop_bounds (f : Pos → Score → Score → Score) (t : Pos → Score)
    (g : Game Pos Move) (b : Pos) (alpha : Score)
    (hf : ∀ p bb, alpha < bb →
      (f p alpha bb < bb → t p ≤ f p alpha bb) ∧
      (alpha < f p alpha bb → f p alpha bb ≤ t p)) :
    ∀ (ms : List Move) (M beta0 : Score), alpha < min beta0 M →
      (alpha < ab_min_loop f g b alpha ms (min beta0 M) M →
        ab_min_loop f g b alpha ms (min beta0 M) M ≤
          (ms.map (fun m => t (g.push b m))).foldl min M) ∧
      (ab_min_loop f g b alpha ms (min beta0 M) M < beta0 →
        (ms.map (fun m => t (g.push b m))).foldl min M ≤
          ab_min_loop f g b alpha ms (min beta0 M) M) := by
  intro ms
  induction ms with
  | nil =>
    intro M beta0 _
    exact ⟨fun _ => le_refl _, fun _ => le_refl _⟩
  | cons m ms ih =>
    intro M beta0 hab
    simp only [ab_min_loop, List.map_cons, List.foldl_cons]
    set ev := f (g.push b m) alpha (min beta0 M) with hev
    have hfm := hf (g.push b m) (min beta0 M) hab
    rw [← hev] at hfm
    by_cases hbr : min (min beta0 M) ev ≤ alpha
    · rw [if_pos hbr]
      have hevle : ev ≤ alpha := by
        rcases min_le_iff.mp hbr with h | h
        · exact absurd h (not_le.mpr hab)
        · exact h
      constructor
      · intro h1
        exact absurd h1 (not_lt.mpr ((min_le_right M ev).trans hevle))
      · intro h2
        rcases le_or_lt M ev with hMev | hevM
        · rw [min_eq_left hMev]
          exact (foldl_min_le _ _).trans (min_le_left M _)
        · rw [min_eq_right hevM.le] at h2 ⊢
          have hcall : ev < min beta0 M := lt_of_le_of_lt hevle hab
          exact ((foldl_min_le _ _).trans (min_le_right M _)).trans (hfm.1 hcall)
    · rw [if_neg hbr]
      have hab' : alpha < min beta0 (min M ev) := by
        rw [← min_assoc]; exact not_le.mp hbr
      have ihh := ih (min M ev) beta0 hab'
      rw [min_assoc]
      have haev : alpha < ev := lt_of_lt_of_le (not_le.mp hbr) (min_le_right _ _)
      have htc : ev ≤ t (g.push b m) := hfm.2 haev
      constructor
      · intro h1
        have hmono : min M ev ≤ min M (t (g.push b m)) := min_le_min le_rfl htc
        exact (ihh.1 h1).trans (foldl_min_mono _ hmono)
      · intro h2
        have hv := ihh.2 h2
        rcases le_or_lt (min M (t (g.push b m))) ev with hle | hgt
        · have : min M (t (g.push b m)) ≤ min M ev :=
            le_min (min_le_left _ _) hle
          exact (foldl_min_mono _ this).trans hv
        · have hevM : ev < M := lt_of_lt_of_le hgt (min_le_left _ _)
          have hble : beta0 ≤ ev := by
            have hnlt : ¬ ev < min beta0 M := fun hcall =>
              absurd (hfm.1 hcall)
                (not_le.mpr (lt_of_lt_of_le hgt (min_le_right M _)))
            rcases min_le_iff.mp (not_lt.mp hnlt) with h | h
            · exact h
            · exact absurd hevM (not_lt.mpr h)
          rw [foldl_min_decomp] at hv
          rw [foldl_min_decomp]
          rcases min_le_iff.mp hv with hv1 | hv1
          · rcases min_le_iff.mp hv1 with hv2 | hv2
            · exact min_le_of_left_le (min_le_of_left_le hv2)
            · exact absurd h2 (not_lt.mpr (hble.trans hv2))
          · exact min_le_of_right_le hv1

theorem ab_bounds (g : Game Pos Move) (c : Bool) :
    ∀ (d : Nat) (b : Pos) (alpha beta : Score), alpha < beta →
      (alpha_beta g c d b alpha beta < beta →
        minimax g c d b ≤ alpha_beta g c d b alpha beta) ∧
      (alpha < alpha_beta g c d b alpha beta →
        alpha_beta g c d b alpha beta ≤ minimax g c d b) := by
  intro d
  induction d with
  | zero =>
    intro b alpha beta _
    exact ⟨fun _ => le_refl _, fun _ => le_refl _⟩
  | succ d ih =>
    intro b alpha beta hab
    by_cases hgo : g.is_game_over b = true
    · rw [alpha_beta, minimax, if_pos hgo, if_pos hgo]
      exact ⟨fun _ => le_refl _, fun _ => le_refl _⟩
    · rw [alpha_beta, minimax, if_neg hgo, if_neg hgo]
      by_cases ht : (g.turn b == c) = true
      · rw [if_pos ht, if_pos ht]
        have hloop := ab_max_loop_bounds (alpha_beta g c d) (minimax g c d) g b
          beta (fun p a ha => ih p a beta ha) (g.legal_moves b) ⊥ alpha
          (by rw [max_eq_left bot_le]; exact hab)
        rw [max_eq_left bot_le] at hloop
        exact hloop
      · rw [if_neg ht, if_neg ht]
        have hloop := ab_min_loop_bounds (alpha_beta g c d) (minimax g c d) g b
          alpha (fun p bb hb => ih p alpha bb hb) (g.legal_moves b) ⊤ beta
          (by rw [min_eq_left le_top]; exact hab)
        rw [min_eq_left le_top] at hloop
        exact ⟨hloop.2, hloop.1⟩

/-- The pruned search with the full window `(-inf, +inf)` computes the
exact unpruned minimax value, at every depth and position. -/
theorem alpha_beta_full (g : Game Pos Move) (c : Bool) (d : Nat) (b : Pos) :
    alpha_beta g c d b ⊥ ⊤ = minimax g c d b := by
  have h := ab_bounds g c d b ⊥ ⊤ score_bot_lt_top
  rcases lt_or_eq_of_le (le_top : alpha_beta g c d b ⊥ ⊤ ≤ ⊤) with hlt | heq
  · have h1 := h.1 hlt
    rcases eq_or_lt_of_le (bot_le : (⊥ : Score) ≤ alpha_beta g c d b ⊥ ⊤) with
      heqb | hltb
    · have h1' : minimax g c d b ≤ ⊥ := by rw [heqb]; exact h1
      rw [← heqb]
      exact (le_bot_iff.mp h1').symm
    · exact le_antisymm (h.2 hltb) h1
  · have h2 := h.2 (by rw [heq]; exact score_bot_lt_top)
    rw [heq] at h2 ⊢
    exact (top_le_iff.mp h2).symm

/-! ### The root loop of `get_best_move` -/

theorem best_loop_snd_max (sc : Move → Score) :
    ∀ (ms : List Move) (bm : Option Move) (v : Score),
      (best_loop sc true ms bm v).2 = (ms.map sc).foldl max v := by
  intro ms
  induction ms with
  | nil => intro bm v; rfl
  | cons m ms ih =>
    intro bm v
    by_cases h : v < sc m
    · simp only [best_loop, List.map_cons, List.foldl_cons]
      rw [if_pos ⟨trivial, h⟩, ih, max_eq_right h.le]
    · simp only [best_loop, List.map_cons, List.foldl_cons]
      rw [if_neg (fun hc => h hc.2), if_neg (fun hc => hc.1 trivial), ih,
        max_eq_left (not_lt.mp h)]

theorem best_loop_snd_min (sc : Move → Score) :
    ∀ (ms : List Move) (bm : Option Move) (v : Score),
      (best_loop sc false ms bm v).2 = (ms.map sc).foldl min v := by
  intro ms
  induction ms with
  | nil => intro bm v; rfl
  | cons m ms ih =>
    intro bm v
    by_cases h : sc m < v
    · simp only [best_loop, List.map_cons, List.foldl_cons]
      rw [if_neg (fun hc => Bool.false_ne_true hc.1),
        if_pos ⟨Bool.false_ne_true, h⟩, ih, min_eq_right h.le]
    · simp only [best_loop, List.map_cons, List.foldl_cons]
      rw [if_neg (fun hc => Bool.false_ne_true hc.1), if_neg (fun hc => h hc.2),
        ih, min_eq_left (not_lt.mp h)]

theorem best_loop_congr (sc sc' : Move → Score) (imax : Bool) :
    ∀ (ms : List Move) (bm : Option Move) (v : Score),
      (∀ m ∈ ms, sc m = sc' m) →
      best_loop sc imax ms bm v = best_loop sc' imax ms bm v := by
  intro ms
  induction ms with
  | nil => intro bm v _; rfl
  | cons m ms ih =>
    intro bm v h
    have hm : sc m = sc' m := h m (List.mem_cons_self m ms)
    simp only [best_loop, hm]
    have hrest : ∀ x ∈ ms, sc x = sc' x := fun x hx =>
      h x (List.mem_cons_of_mem m hx)
    split_ifs <;> exact ih _ _ hrest

/-- Claim C1: the move chosen by `get_best_move` under alpha-beta
pruning is the move the identical root loop driven by exhaustive
unpruned minimax child scores would choose, and the best score the root
loop computes is exactly the unpruned minimax value of the root at the
same depth. -/
theorem get_best_move_eq_minimax (g : Game Pos Move)
    (choice : List Move → Option Move) (b : Pos) (depth : Nat) (c : Bool)
    (hd : 1 ≤ depth) (hgo : g.is_game_over b = false) :
    get_best_move g choice b depth c = get_best_move_minimax g choice b depth c ∧
    (best_loop (root_score g c b depth) (g.turn b == c) (g.legal_moves b) none
        (if g.turn b == c then (⊥ : Score) else ⊤)).2 = minimax g c depth b := by
  have hsc : ∀ m ∈ g.legal_moves b,
      root_score g c b depth m = minimax g c (depth - 1) (g.push b m) :=
    fun m _ => alpha_beta_full g c (depth - 1) (g.push b m)
  have hloops := best_loop_congr (root_score g c b depth)
    (fun m => minimax g c (depth - 1) (g.push b m)) (g.turn b == c)
    (g.legal_moves b) none (if g.turn b == c then (⊥ : Score) else ⊤) hsc
  constructor
  · simp only [get_best_move, get_best_move_minimax]
    rw [hloops]
  · obtain ⟨d, rfl⟩ : ∃ d, depth = d + 1 :=
      ⟨depth - 1, (Nat.succ_pred_eq_of_pos hd).symm⟩
    have hd1 : d + 1 - 1 = d := rfl
    by_cases ht : (g.turn b == c) = true
    · rw [hloops, ht, if_pos rfl, best_loop_snd_max, minimax, if_neg (by rw [hgo]; exact Bool.false_ne_true), if_pos ht, hd1]
    · rw [hloops, eq_false_of_ne_true ht, if_neg (fun hc => Bool.false_ne_true hc),
        best_loop_snd_min, minimax, if_neg (by rw [hgo]; exact Bool.false_ne_true),
        if_neg ht, hd1]

/-- Witness for C1: depth 2 from position 0 of the demo game. -/
theorem get_best_move_eq_minimax_witness :
    get_best_move demoGame (fun l => l.head?) 0 2 true =
      get_best_move_minimax demoGame (fun l => l.head?) 0 2 true ∧
    (best_loop (root_score demoGame true 0 2) (demoGame.turn 0 == true)
        (demoGame.legal_moves 0) none
        (if demoGame.turn 0 == true then (⊥ : Score) else ⊤)).2 =
      minimax demoGame true 2 0 :=
  get_best_move_eq_minimax demoGame (fun l => l.head?) 0 2 true (by decide)
    (by decide)

/-! ### Finiteness of search values -/

theorem score_max_finite {a b : Score} (ha : a.IsFinite) (hb : b.IsFinite) :
    (max a b).IsFinite := by
  rcases max_choice a b with h | h <;> rw [h] <;> assumption

theorem score_min_finite {a b : Score} (ha : a.IsFinite) (hb : b.IsFinite) :
    (min a b).IsFinite := by
  rcases min_choice a b with h | h <;> rw [h] <;> assumption

theorem ab_max_loop_finite (f : Pos → Score → Score → Score)
    (g : Game Pos Move) (b : Pos) (beta : Score)
    (hf : ∀ p a bb, (f p a bb).IsFinite) :
    ∀ (ms : List Move) (alpha M : Score),
      (M = ⊥ ∧ ms ≠ []) ∨ M.IsFinite →
      (ab_max_loop f g b beta ms alpha M).IsFinite := by
  intro ms
  induction ms with
  | nil =>
    intro alpha M h
    rcases h with ⟨_, hne⟩ | hfin
    · exact absurd rfl hne
    · exact hfin
  | cons m ms ih =>
    intro alpha M h
    have hevfin := hf (g.push b m) alpha beta
    have hfin' : (max M (f (g.push b m) alpha beta)).IsFinite := by
      rcases h with ⟨hbot, _⟩ | hfin
      · rw [hbot, max_eq_right bot_le]; exact hevfin
      · exact score_max_finite hfin hevfin
    simp only [ab_max_loop]
    split
    · exact hfin'
    · exact ih _ _ (Or.inr hfin')

theorem ab_min_loop_finite (f : Pos → Score → Score → Score)
    (g : Game Pos Move) (b : Pos) (alpha : Score)
    (hf : ∀ p a bb, (f p a bb).IsFinite) :
    ∀ (ms : List Move) (beta M : Score),
      (M = ⊤ ∧ ms ≠ []) ∨ M.IsFinite →
      (ab_min_loop f g b alpha ms beta M).IsFinite := by
  intro ms
  induction ms with
  | nil =>
    intro beta M h
    rcases h with ⟨_, hne⟩ | hfin
    · exact absurd rfl hne
    · exact hfin
  | cons m ms ih =>
    intro beta M h
    have hevfin := hf (g.push b m) alpha beta
    have hfin' : (min M (f (g.push b m) alpha beta)).IsFinite := by
      rcases h with ⟨htop, _⟩ | hfin
      · rw [htop, min_eq_right le_top]; exact hevfin
      · exact score_min_finite hfin hevfin
    simp only [ab_min_loop]
    split
    · exact hfin'
    · exact ih _ _ (Or.inr hfin')

/-- Under a rules engine in which every non-terminal position has at
least one legal move, `alpha_beta` always returns a finite score. -/
theorem alpha_beta_finite (g : Game Pos Move) (c : Bool)
    (hne : ∀ p, g.is_game_over p = false → g.legal_moves p ≠ []) :
    ∀ (d : Nat) (b : Pos) (alpha beta : Score),
      (alpha_beta g c d b alpha beta).IsFinite := by
  intro d
  induction d with
  | zero => intro b alpha beta; exact ⟨evaluate_board g b c, rfl⟩
  | succ d ih =>
    intro b alpha beta
    by_cases hgo : g.is_game_over b = true
    · rw [alpha_beta, if_pos hgo]; exact ⟨evaluate_board g b c, rfl⟩
    · have hgo' : g.is_game_over b = false := by simpa using hgo
      rw [alpha_beta, if_neg hgo]
      split
      · exact ab_max_loop_finite _ g b beta (fun p a bb => ih p a bb) _ alpha ⊥
          (Or.inl ⟨rfl, hne b hgo'⟩)
      · exact ab_min_loop_finite _ g b alpha (fun p a bb => ih p a bb) _ beta ⊤
          (Or.inl ⟨rfl, hne b hgo'⟩)

/-- Claim C10: provided the rules engine guarantees a non-terminal
position always has a legal move, `alpha_beta` never returns
`-inf` or `+inf`, for any depth, position, window, or perspective. -/
theorem alpha_beta_never_infinite (g : Game Pos Move) (c : Bool)
    (hne : ∀ p, g.is_game_over p = false → g.legal_moves p ≠ [])
    (d : Nat) (b : Pos) (alpha beta : Score) :
    alpha_beta g c d b alpha beta ≠ (⊥ : Score) ∧
    alpha_beta g c d b alpha beta ≠ (⊤ : Score) := by
  obtain ⟨n, hn⟩ := alpha_beta_finite g c hne d b alpha beta
  rw [hn]
  exact ⟨score_ofInt_ne_bot n, score_ofInt_ne_top n⟩

/-- Witness for C10 in the demo game, whose positions are never
terminal and always offer two moves. -/
theorem alpha_beta_never_infinite_witness :
    alpha_beta demoGame true 3 0 ⊥ ⊤ ≠ (⊥ : Score) ∧
    alpha_beta demoGame true 3 0 ⊥ ⊤ ≠ (⊤ : Score) :=
  alpha_beta_never_infinite demoGame true
    (fun p _ => by simp [demoGame]) 3 0 ⊥ ⊤

/-! ### First-argbest characterization of the root loop -/

theorem best_loop_spec_max (sc : Move → Score) :
    ∀ (ms : List Move) (bm : Option Move) (v : Score),
      (best_loop sc true ms bm v = (bm, v) ∧ ∀ m ∈ ms, sc m ≤ v) ∨
      (∃ i, ∃ h : i < ms.length,
        best_loop sc true ms bm v =
          (some (ms.get ⟨i, h⟩), sc (ms.get ⟨i, h⟩)) ∧
        v < sc (ms.get ⟨i, h⟩) ∧
        (∀ j (hj : j < ms.length), j < i →
          sc (ms.get ⟨j, hj⟩) < sc (ms.get ⟨i, h⟩)) ∧
        (∀ j (hj : j < ms.length), sc (ms.get ⟨j, hj⟩) ≤ sc (ms.get ⟨i, h⟩))) := by
  intro ms
  induction ms with
  | nil => intro bm v; left; exact ⟨rfl, by simp⟩
  | cons m ms ih =>
    intro bm v
    by_cases h : v < sc m
    · have hstep : best_loop sc true (m :: ms) bm v =
          best_loop sc true ms (some m) (sc m) := by
        simp only [best_loop]
        rw [if_pos ⟨trivial, h⟩]
      rcases ih (some m) (sc m) with ⟨heq, hall⟩ | ⟨i, hi, heq, hv, hstrict, hle⟩
      · right
        refine ⟨0, Nat.succ_pos _, ?_, h, ?_, ?_⟩
        · rw [hstep]; exact heq
        · intro j hj hj0
          exact absurd hj0 (Nat.not_lt_zero j)
        · intro j hj
          cases j with
          | zero => exact le_refl _
          | succ j => exact hall _ (ms.get_mem _ _)
      · right
        refine ⟨i + 1, Nat.succ_lt_succ hi, ?_, h.trans hv, ?_, ?_⟩
        · rw [hstep]; exact heq
        · intro j hj hji
          cases j with
          | zero => exact hv
          | succ j =>
            exact hstrict j (Nat.lt_of_succ_lt_succ hj) (Nat.lt_of_succ_lt_succ hji)
        · intro j hj
          cases j with
          | zero => exact hv.le
          | succ j => exact hle j (Nat.lt_of_succ_lt_succ hj)
    · have hstep : best_loop sc true (m :: ms) bm v =
          best_loop sc true ms bm v := by
        simp only [best_loop]
        rw [if_neg (fun hc => h hc.2), if_neg (fun hc => hc.1 trivial)]
      rcases ih bm v with ⟨heq, hall⟩ | ⟨i, hi, heq, hv, hstrict, hle⟩
      · left
        exact ⟨hstep.trans heq, List.forall_mem_cons.mpr ⟨not_lt.mp h, hall⟩⟩
      · right
        refine ⟨i + 1, Nat.succ_lt_succ hi, ?_, hv, ?_, ?_⟩
        · rw [hstep]; exact heq
        · intro j hj hji
          cases j with
          | zero => exact lt_of_le_of_lt (not_lt.mp h) hv
          | succ j =>
            exact hstrict j (Nat.lt_of_succ_lt_succ hj) (Nat.lt_of_succ_lt_succ hji)
        · intro j hj
          cases j with
          | zero => exact (not_lt.mp h).trans hv.le
          | succ j => exact hle j (Nat.lt_of_succ_lt_succ hj)

theorem best_loop_spec_min (sc : Move → Score) :
    ∀ (ms : List Move) (bm : Option Move) (v : Score),
      (best_loop sc false ms bm v = (bm, v) ∧ ∀ m ∈ ms, v ≤ sc m) ∨
      (∃ i, ∃ h : i < ms.length,
        best_loop sc false ms bm v =
          (some (ms.get ⟨i, h⟩), sc (ms.get ⟨i, h⟩)) ∧
        sc (ms.get ⟨i, h⟩) < v ∧
        (∀ j (hj : j < ms.length), j < i →
          sc (ms.get ⟨i, h⟩) < sc (ms.get ⟨j, hj⟩)) ∧
        (∀ j (hj : j < ms.length), sc (ms.get ⟨i, h⟩) ≤ sc (ms.get ⟨j, hj⟩))) := by
  intro ms
  induction ms with
  | nil => intro bm v; left; exact ⟨rfl, by simp⟩
  | cons m ms ih =>
    intro bm v
    by_cases h : sc m < v
    · have hstep : best_loop sc false (m :: ms) bm v =
          best_loop sc false ms (some m) (sc m) := by
        simp only [best_loop]
        rw [if_neg (fun hc => Bool.false_ne_true hc.1),
          if_pos ⟨Bool.false_ne_true, h⟩]
      rcases ih (some m) (sc m) with ⟨heq, hall⟩ | ⟨i, hi, heq, hv, hstrict, hle⟩
      · right
        refine ⟨0, Nat.succ_pos _, ?_, h, ?_, ?_⟩
        · rw [hstep]; exact heq
        · intro j hj hj0
          exact absurd hj0 (Nat.not_lt_zero j)
        · intro j hj
          cases j with
          | zero => exact le_refl _
          | succ j => exact hall _ (ms.get_mem _ _)
      · right
        refine ⟨i + 1, Nat.succ_lt_succ hi, ?_, hv.trans h, ?_, ?_⟩
        · rw [hstep]; exact heq
        · intro j hj hji
          cases j with
          | zero => exact hv
          | succ j =>
            exact hstrict j (Nat.lt_of_succ_lt_succ hj) (Nat.lt_of_succ_lt_succ hji)
        · intro j hj
          cases j with
          | zero => exact hv.le
          | succ j => exact hle j (Nat.lt_of_succ_lt_succ hj)
    · have hstep : best_loop sc false (m :: ms) bm v =
          best_loop sc false ms bm v := by
        simp only [best_loop]
        rw [if_neg (fun hc => Bool.false_ne_true hc.1), if_neg (fun hc => h hc.2)]
      rcases ih bm v with ⟨heq, hall⟩ | ⟨i, hi, heq, hv, hstrict, hle⟩
      · left
        exact ⟨hstep.trans heq, List.forall_mem_cons.mpr ⟨not_lt.mp h, hall⟩⟩
      · right
        refine ⟨i + 1, Nat.succ_lt_succ hi, ?_, hv, ?_, ?_⟩
        · rw [hstep]; exact heq
        · intro j hj hji
          cases j with
          | zero => exact lt_of_lt_of_le hv (not_lt.mp h)
          | succ j =>
            exact hstrict j (Nat.lt_of_succ_lt_succ hj) (Nat.lt_of_succ_lt_succ hji)
        · intro j hj
          cases j with
          | zero => exact hv.le.trans (not_lt.mp h)
          | succ j => exact hle j (Nat.lt_of_succ_lt_succ hj)

/-- Claim C5: if the root loop of `get_best_move` returns move `m`,
then `m` sits at some index `i` of the legal-move enumeration, every
strictly earlier move scores strictly worse (strictly below `m`'s score
at a maximizing root, strictly above at a minimizing root), and no move
scores better: the best move is replaced only on strict improvement, so
among equal-scoring moves the earliest in enumeration order wins. -/
theorem get_best_move_tie_break (g : Game Pos Move) (b : Pos) (depth : Nat)
    (c : Bool) (m : Move)
    (hres : (best_loop (root_score g c b depth) (g.turn b == c)
      (g.legal_moves b) none
      (if g.turn b == c then (⊥ : Score) else ⊤)).1 = some m) :
    ∃ i, ∃ h : i < (g.legal_moves b).length,
      (g.legal_moves b).get ⟨i, h⟩ = m ∧
      (∀ j (hj : j < (g.legal_moves b).length), j < i →
        if g.turn b == c then
          root_score g c b depth ((g.legal_moves b).get ⟨j, hj⟩) <
            root_score g c b depth m
        else
          root_score g c b depth m <
            root_score g c b depth ((g.legal_moves b).get ⟨j, hj⟩)) ∧
      (∀ j (hj : j < (g.legal_moves b).length),
        if g.turn b == c then
          root_score g c b depth ((g.legal_moves b).get ⟨j, hj⟩) ≤
            root_score g c b depth m
        else
          root_score g c b depth m ≤
            root_score g c b depth ((g.legal_moves b).get ⟨j, hj⟩)) := by
  by_cases ht : (g.turn b == c) = true
  · simp only [ht, if_true] at hres ⊢
    rcases best_loop_spec_max (root_score g c b depth) (g.legal_moves b) none ⊥
      with ⟨heq, _⟩ | ⟨i, hi, heq, _, hstrict, hle⟩
    · rw [heq] at hres
      exact absurd hres (by simp)
    · rw [heq] at hres
      have hm : (g.legal_moves b).get ⟨i, hi⟩ = m := Option.some.inj hres
      exact ⟨i, hi, hm, fun j hj hji => hm ▸ hstrict j hj hji,
        fun j hj => hm ▸ hle j hj⟩
  · simp only [ht, if_false, Bool.false_eq_true] at hres ⊢
    rcases best_loop_spec_min (root_score g c b depth) (g.legal_moves b) none ⊤
      with ⟨heq, _⟩ | ⟨i, hi, heq, _, hstrict, hle⟩
    · rw [heq] at hres
      exact absurd hres (by simp)
    · rw [heq] at hres
      have hm : (g.legal_moves b).get ⟨i, hi⟩ = m := Option.some.inj hres
      exact ⟨i, hi, hm, fun j hj hji => hm ▸ hstrict j hj hji,
        fun j hj => hm ▸ hle j hj⟩

/-- Witness for C5: at position 0 of the demo game, depth 2, the root
loop returns move 1 (the earlier of the two moves, which tie at
score 2). -/
theorem get_best_move_tie_break_witness :
    ∃ i, ∃ h : i < (demoGame.legal_moves 0).length,
      (demoGame.legal_moves 0).get ⟨i, h⟩ = 1 ∧
      (∀ j (hj : j < (demoGame.legal_moves 0).length), j < i →
        if demoGame.turn 0 == true then
          root_score demoGame true 0 2 ((demoGame.legal_moves 0).get ⟨j, hj⟩) <
            root_score demoGame true 0 2 1
        else
          root_score demoGame true 0 2 1 <
            root_score demoGame true 0 2 ((demoGame.legal_moves 0).get ⟨j, hj⟩)) ∧
      (∀ j (hj : j < (demoGame.legal_moves 0).length),
        if demoGame.turn 0 == true then
          root_score demoGame true 0 2 ((demoGame.legal_moves 0).get ⟨j, hj⟩) ≤
            root_score demoGame true 0 2 1
        else
          root_score demoGame true 0 2 1 ≤
            root_score demoGame true 0 2 ((demoGame.legal_moves 0).get ⟨j, hj⟩)) :=
  get_best_move_tie_break demoGame 0 2 true 1 (by decide)

/-- Under the nonempty-legal-moves guarantee, the root loop always
assigns a best move, and that move comes from the legal-move list. -/
theorem best_loop_root_some (g : Game Pos Move) (c : Bool) (b : Pos)
    (depth : Nat)
    (hne : ∀ p, g.is_game_over p = false → g.legal_moves p ≠ [])
    (hms : g.legal_moves b ≠ []) :
    ∃ m, (best_loop (root_score g c b depth) (g.turn b == c) (g.legal_moves b)
        none (if g.turn b == c then (⊥ : Score) else ⊤)).1 = some m ∧
      m ∈ g.legal_moves b := by
  have hfin : ∀ m, (root_score g c b depth m).IsFinite := fun m =>
    alpha_beta_finite g c hne (depth - 1) (g.push b m) ⊥ ⊤
  obtain ⟨m0, ms0, hms0⟩ : ∃ x l, g.legal_moves b = x :: l := by
    cases hmoves : g.legal_moves b with
    | nil => exact absurd hmoves hms
    | cons x l => exact ⟨x, l, rfl⟩
  by_cases ht : (g.turn b == c) = true
  · simp only [ht, if_true]
    rcases best_loop_spec_max (root_score g c b depth) (g.legal_moves b) none ⊥
      with ⟨heq, hall⟩ | ⟨i, hi, heq, _, _, _⟩
    · exfalso
      have h0 : root_score g c b depth m0 ≤ ⊥ :=
        hall m0 (by rw [hms0]; exact List.mem_cons_self _ _)
      obtain ⟨n, hn⟩ := hfin m0
      rw [hn] at h0
      exact score_ofInt_ne_bot n (le_bot_iff.mp h0)
    · exact ⟨_, by rw [heq], List.get_mem _ _ _⟩
  · simp only [ht, if_false, Bool.false_eq_true]
    rcases best_loop_spec_min (root_score g c b depth) (g.legal_moves b) none ⊤
      with ⟨heq, hall⟩ | ⟨i, hi, heq, _, _, _⟩
    · exfalso
      have h0 : (⊤ : Score) ≤ root_score g c b depth m0 :=
        hall m0 (by rw [hms0]; exact List.mem_cons_self _ _)
      obtain ⟨n, hn⟩ := hfin m0
      rw [hn] at h0
      exact score_ofInt_ne_top n (top_le_iff.mp h0)
    · exact ⟨_, by rw [heq], List.get_mem _ _ _⟩

/-- Claim C8: with a rules engine under which non-terminal positions
have legal moves, and a root with at least one legal move, the scoring
loop of `get_best_move` assigns a best move, the random fallback branch
is not taken (the result does not come from `choice`), and the returned
move is one of the scored legal moves. -/
theorem get_best_move_no_fallback (g : Game Pos Move)
    (choice : List Move → Option Move) (b : Pos) (depth : Nat) (c : Bool)
    (hne : ∀ p, g.is_game_over p = false → g.legal_moves p ≠ [])
    (hms : g.legal_moves b ≠ []) :
    ∃ m, (best_loop (root_score g c b depth) (g.turn b == c) (g.legal_moves b)
        none (if g.turn b == c then (⊥ : Score) else ⊤)).1 = some m ∧
      get_best_move g choice b depth c = some m ∧ m ∈ g.legal_moves b := by
  obtain ⟨m, hm, hmem⟩ := best_loop_root_some g c b depth hne hms
  refine ⟨m, hm, ?_, hmem⟩
  simp only [get_best_move, hm]

/-- Witness for C8 in the demo game. -/
theorem get_best_move_no_fallback_witness :
    ∃ m, (best_loop (root_score demoGame true 0 2) (demoGame.turn 0 == true)
        (demoGame.legal_moves 0) none
        (if demoGame.turn 0 == true then (⊥ : Score) else ⊤)).1 = some m ∧
      get_best_move demoGame (fun l => l.head?) 0 2 true = some m ∧
      m ∈ demoGame.legal_moves 0 :=
  get_best_move_no_fallback demoGame (fun l => l.head?) 0 2 true
    (fun p _ => by simp [demoGame]) (by decide)

/-- Claim C9: under the same guarantees, `get_best_move` does not
depend on the random source: any two choice oracles produce the
identical move, so the result is a deterministic function of position,
depth, and perspective. -/
theorem get_best_move_deterministic (g : Game Pos Move) (b : Pos)
    (depth : Nat) (c : Bool)
    (hne : ∀ p, g.is_game_over p = false → g.legal_moves p ≠ [])
    (hms : g.legal_moves b ≠ [])
    (choice1 choice2 : List Move → Option Move) :
    get_best_move g choice1 b depth c = get_best_move g choice2 b depth c := by
  obtain ⟨m, hm, _⟩ := best_loop_root_some g c b depth hne hms
  simp only [get_best_move, hm]

/-- Witness for C9: two different random oracles, identical move. -/
theorem get_best_move_deterministic_witness :
    get_best_move demoGame (fun l => l.head?) 0 2 true =
      get_best_move demoGame (fun _ => none) 0 2 true :=
  get_best_move_deterministic demoGame 0 2 true
    (fun p _ => by simp [demoGame]) (by decide) (fun l => l.head?) (fun _ => none)

/-! ### Windows only tighten below a node -/

theorem ab_windows_max_loop_within (fab : Pos → Score → Score → Score)
    (fw : Pos → Score → Score → List (Score × Score)) (g : Game Pos Move)
    (b : Pos) (beta alpha0 : Score)
    (hfw : ∀ p a bb w, w ∈ fw p a bb → a ≤ w.1 ∧ w.2 ≤ bb) :
    ∀ (ms : List Move) (alpha : Score), alpha0 ≤ alpha →
      ∀ w ∈ ab_windows_max_loop fab fw g b beta ms alpha,
        alpha0 ≤ w.1 ∧ w.2 ≤ beta := by
  intro ms
  induction ms with
  | nil => intro alpha _ w hw; exact absurd hw (List.not_mem_nil w)
  | cons m ms ih =>
    intro alpha ha w hw
    simp only [ab_windows_max_loop] at hw
    rcases List.mem_append.mp hw with hw1 | hw2
    · rcases List.mem_cons.mp hw1 with hw0 | hwf
      · rw [hw0]; exact ⟨ha, le_refl beta⟩
      · obtain ⟨h1, h2⟩ := hfw _ _ _ w hwf
        exact ⟨ha.trans h1, h2⟩
    · by_cases hbr : beta ≤ max alpha (fab (g.push b m) alpha beta)
      · rw [if_pos hbr] at hw2
        exact absurd hw2 (List.not_mem_nil w)
      · rw [if_neg hbr] at hw2
        exact ih _ (ha.trans (le_max_left _ _)) w hw2

theorem ab_windows_min_loop_within (fab : Pos → Score → Score → Score)
    (fw : Pos → Score → Score → List (Score × Score)) (g : Game Pos Move)
    (b : Pos) (alpha beta0 : Score)
    (hfw : ∀ p a bb w, w ∈ fw p a bb → a ≤ w.1 ∧ w.2 ≤ bb) :
    ∀ (ms : List Move) (beta : Score), beta ≤ beta0 →
      ∀ w ∈ ab_windows_min_loop fab fw g b alpha ms beta,
        alpha ≤ w.1 ∧ w.2 ≤ beta0 := by
  intro ms
  induction ms with
  | nil => intro beta _ w hw; exact absurd hw (List.not_mem_nil w)
  | cons m ms ih =>
    intro beta hb w hw
    simp only [ab_windows_min_loop] at hw
    rcases List.mem_append.mp hw with hw1 | hw2
    · rcases List.mem_cons.mp hw1 with hw0 | hwf
      · rw [hw0]; exact ⟨le_refl alpha, hb⟩
      · obtain ⟨h1, h2⟩ := hfw _ _ _ w hwf
        exact ⟨h1, h2.trans hb⟩
    · by_cases hbr : min beta (fab (g.push b m) alpha beta) ≤ alpha
      · rw [if_pos hbr] at hw2
        exact absurd hw2 (List.not_mem_nil w)
      · rw [if_neg hbr] at hw2
        exact ih _ ((min_le_left _ _).trans hb) w hw2

/-- Claim C7: every `(alpha, beta)` window received by any recursive
`alpha_beta` invocation below a node searched with window
`(alpha, beta)` satisfies `alpha ≤ alpha'` and `beta' ≤ beta`: the
recursion threads the current, possibly tightened bounds and never
re-widens the window below the root.  (That the root itself starts from
the full window `(-inf, +inf)` is literal in the definitions of
`get_best_move` and `root_score`.) -/
theorem ab_windows_tighten (g : Game Pos Move) (c : Bool) :
    ∀ (d : Nat) (b : Pos) (alpha beta : Score) (w : Score × Score),
      w ∈ ab_windows g c d b alpha beta → alpha ≤ w.1 ∧ w.2 ≤ beta := by
  intro d
  induction d with
  | zero => intro b alpha beta w hw; exact absurd hw (List.not_mem_nil w)
  | succ d ih =>
    intro b alpha beta w hw
    rw [ab_windows] at hw
    by_cases hgo : g.is_game_over b = true
    · rw [if_pos hgo] at hw
      exact absurd hw (List.not_mem_nil w)
    · rw [if_neg hgo] at hw
      by_cases ht : (g.turn b == c) = true
      · rw [if_pos ht] at hw
        exact ab_windows_max_loop_within _ _ g b beta alpha
          (fun p a bb w' hw' => ih p a bb w' hw') (g.legal_moves b) alpha
          le_rfl w hw
      · rw [if_neg ht] at hw
        exact ab_windows_min_loop_within _ _ g b alpha beta
          (fun p a bb w' hw' => ih p a bb w' hw') (g.legal_moves b) beta
          le_rfl w hw

/-- Witness for C7: a tightened window actually recorded in a depth-2
search of the demo game. -/
theorem ab_windows_tighten_witness :
    (⊥ : Score) ≤ (Score.ofInt 2, (⊤ : Score)).1 ∧
      (Score.ofInt 2, (⊤ : Score)).2 ≤ (⊤ : Score) :=
  ab_windows_tighten demoGame true 2 0 ⊥ ⊤ (Score.ofInt 2, ⊤) (by decide)

/-! ### The state-threaded and pure embeddings agree

The score computed by the `BoardState` version is the score computed by
the pure version on the current position, so the frame theorems above
and the value theorems are about one and the same search. -/

theorem ab_max_loopS_fst (f : Pos → Score → Score → Score)
    (fS : BoardState Pos → Score → Score → Score × BoardState Pos)
    (g : Game Pos Move) (beta : Score)
    (hframe : ∀ s a bb, (fS s a bb).2 = s)
    (hfst : ∀ s a bb, (fS s a bb).1 = f s.cur a bb) :
    ∀ (ms : List Move) (s : BoardState Pos) (alpha M : Score),
      (ab_max_loopS fS g beta ms s alpha M).1 =
        ab_max_loop f g s.cur beta ms alpha M := by
  intro ms
  induction ms with
  | nil => intro s alpha M; rfl
  | cons m ms ih =>
    intro s alpha M
    simp only [ab_max_loopS, ab_max_loop, hframe, hfst, popS_pushS, pushS]
    split
    · rfl
    · exact ih s _ _

theorem ab_min_loopS_fst (f : Pos → Score → Score → Score)
    (fS : BoardState Pos → Score → Score → Score × BoardState Pos)
    (g : Game Pos Move) (alpha : Score)
    (hframe : ∀ s a bb, (fS s a bb).2 = s)
    (hfst : ∀ s a bb, (fS s a bb).1 = f s.cur a bb) :
    ∀ (ms : List Move) (s : BoardState Pos) (beta M : Score),
      (ab_min_loopS fS g alpha ms s beta M).1 =
        ab_min_loop f g s.cur alpha ms beta M := by
  intro ms
  induction ms with
  | nil => intro s beta M; rfl
  | cons m ms ih =>
    intro s beta M
    simp only [ab_min_loopS, ab_min_loop, hframe, hfst, popS_pushS, pushS]
    split
    · rfl
    · exact ih s _ _

theorem alpha_betaS_fst (g : Game Pos Move) (c : Bool) :
    ∀ (d : Nat) (s : BoardState Pos) (alpha beta : Score),
      (alpha_betaS g c d s alpha beta).1 = alpha_beta g c d s.cur alpha beta := by
  intro d
  induction d with
  | zero => intro s alpha beta; rfl
  | succ d ih =>
    intro s alpha beta
    rw [alpha_betaS, alpha_beta]
    split
    · rfl
    · split
      · exact ab_max_loopS_fst (alpha_beta g c d) (alpha_betaS g c d) g beta
          (fun s' a bb => alpha_betaS_frame g c d s' a bb)
          (fun s' a bb => ih s' a bb) (g.legal_moves s.cur) s alpha ⊥
      · exact ab_min_loopS_fst (alpha_beta g c d) (alpha_betaS g c d) g alpha
          (fun s' a bb => alpha_betaS_frame g c d s' a bb)
          (fun s' a bb => ih s' a bb) (g.legal_moves s.cur) s beta ⊤

theorem best_loopS_fst (g : Game Pos Move) (c : Bool) (depth : Nat)
    (imax : Bool) :
    ∀ (ms : List Move) (s : BoardState Pos) (bm : Option Move) (bv : Score),
      (best_loopS g c depth imax ms s bm bv).1 =
        best_loop (root_score g c s.cur depth) imax ms bm bv := by
  intro ms
  induction ms with
  | nil => intro s bm bv; rfl
  | cons m ms ih =>
    intro s bm bv
    have hr : (alpha_betaS g c (depth - 1) (pushS g s m) ⊥ ⊤).1 =
        root_score g c s.cur depth m :=
      alpha_betaS_fst g c (depth - 1) (pushS g s m) ⊥ ⊤
    simp only [best_loopS, best_loop, alpha_betaS_frame, popS_pushS, hr]
    split
    · exact ih s _ _
    · split
      · exact ih s _ _
      · exact ih s _ _

theorem get_best_moveS_fst (g : Game Pos Move)
    (choice : List Move → Option Move) (s : BoardState Pos) (depth : Nat)
    (c : Bool) :
    (get_best_moveS g choice s depth c).1 = get_best_move g choice s.cur depth c := by
  rw [get_best_moveS, get_best_move]
  have h := best_loopS_fst g c depth (g.turn s.cur == c) (g.legal_moves s.cur) s
    none (if g.turn s.cur == c then (⊥ : Score) else ⊤)
  have h1 : (best_loopS g c depth (g.turn s.cur == c) (g.legal_moves s.cur) s
      none (if g.turn s.cur == c then (⊥ : Score) else ⊤)).1.1 =
      (best_loop (root_score g c s.cur depth) (g.turn s.cur == c)
        (g.legal_moves s.cur) none
        (if g.turn s.cur == c then (⊥ : Score) else ⊤)).1 := by rw [h]
  rw [h1]
  generalize (best_loop (root_score g c s.cur depth) (g.turn s.cur == c)
    (g.legal_moves s.cur) none
    (if g.turn s.cur == c then (⊥ : Score) else ⊤)).1 = x
  cases x <;> rfl

end ChessEngine
